import Mathlib

/-!
Verification development for the instarec streaming engine.

The definitions below are a shallow embedding of the Python source under
`src/instarec/`: network responses become explicit oracle functions, byte
strings become `List Nat`, files become append-event logs, and the
concurrent workers become explicit state-passing functions.  Timestamps are
`Nat`, wall-clock times and retry delays are `ℚ`.
-/

namespace Instarec

/-! ## HTTP client (`src/instarec/io.py`) -/

/-- One attempt's outcome for a GET issued by `fetch_url_content`:
either a response with status code, body and headers, or a transport error
(`TimeoutError` / `aiohttp.ClientError`). -/
inductive GetResp where
  | response (status : Nat) (body : List Nat) (headers : List String)
  | transportError
deriving DecidableEq

/-- The value `fetch_url_content` produces: the optional body, the optional
headers of the final response (present on 200 and on 404, absent when the
function gives up), and the list of back-off sleeps it performed. -/
structure FetchResult where
  content : Option (List Nat)
  headers : Option (List String)
  sleeps : List ℚ
deriving DecidableEq

/-- Statuses (or transport errors) that `fetch_url_content` retries after a
back-off sleep: transport errors, 5xx, 429, and anything that is neither 200,
nor 404, nor a non-429 4xx. -/
def isRetryable : GetResp → Bool
  | GetResp.transportError => true
  | GetResp.response status _ _ =>
      !(status == 200) && !(status == 404) &&
        !(decide (400 ≤ status ∧ status < 500 ∧ status ≠ 429))

/-- The retry loop of `fetch_url_content` (src/instarec/io.py, lines 15-45).
`attempt` is the index of the current attempt, `delay` is the current
back-off delay, and the final `Nat` is the number of attempts still allowed
(`retries - attempt`).  The network is an oracle `responses` giving each
attempt's outcome. -/
def fetchUrlContentGo (responses : Nat → GetResp) : Nat → ℚ → Nat → FetchResult
  | _, _, 0 => ⟨none, none, []⟩
  | attempt, delay, fuel+1 =>
    let retryOrGiveUp : FetchResult :=
      if fuel = 0 then ⟨none, none, []⟩
      else
        let r := fetchUrlContentGo responses (attempt+1) (2*delay) fuel
        ⟨r.content, r.headers, delay :: r.sleeps⟩
    match responses attempt with
    | GetResp.response status body hdrs =>
      if status = 200 then ⟨some body, some hdrs, []⟩
      else if status = 404 then ⟨none, some hdrs, []⟩
      else if 400 ≤ status ∧ status < 500 ∧ status ≠ 429 then ⟨none, none, []⟩
      else retryOrGiveUp
    | GetResp.transportError => retryOrGiveUp

/-- `fetch_url_content(session, url, retries, retry_delay, log)` from
src/instarec/io.py: up to `retries` attempts, exponential back-off starting
at `retry_delay`. -/
def fetch_url_content (responses : Nat → GetResp) (retries : Nat) (retry_delay : ℚ) :
    FetchResult :=
  fetchUrlContentGo responses 0 retry_delay retries

/-- Python truthiness of an optional byte string (`if content:`):
`None` and `b""` are falsy. -/
def truthy : Option (List Nat) → Bool
  | some c => !c.isEmpty
  | none => false

/-- `download_file` from src/instarec/io.py, given the fetch outcome:
returns the bytes written to the file (if any) and the boolean result.
The file is written only when the fetched content is truthy. -/
def download_file (fr : FetchResult) : Option (List Nat) × Bool :=
  match fr.content with
  | some c => if c.isEmpty then (none, false) else (some c, true)
  | none => (none, false)

/-! ## Segment store and the pair fetcher -/

/-- Append-only pair of staging files (video and audio of the same class,
e.g. `video_past.tmp` / `audio_past.tmp`).  Each append event records the
timestamp it was performed for and the bytes appended. -/
structure AppendLog where
  video : List (Nat × List Nat)
  audio : List (Nat × List Nat)
deriving DecidableEq

/-- Timestamps of the append events of the video file, in append order. -/
def videoTs (l : AppendLog) : List Nat := l.video.map Prod.fst

/-- Timestamps of the append events of the audio file, in append order. -/
def audioTs (l : AppendLog) : List Nat := l.audio.map Prod.fst

/-- `download_and_append_segment` from src/instarec/io.py (lines 60-89),
given the outcomes of the two parallel GETs (`videoContent`,
`audioContent` are the `content` parts of the two `fetch_url_content`
calls): appends to both files iff both are truthy, else appends nothing. -/
def download_and_append_segment (videoContent audioContent : Option (List Nat))
    (t : Nat) (log : AppendLog) : AppendLog × Bool :=
  if truthy videoContent && truthy audioContent then
    (⟨log.video ++ [(t, videoContent.getD [])], log.audio ++ [(t, audioContent.getD [])]⟩,
      true)
  else (log, false)

/-! ## Backlog discoverer (`search_forwards_for_next_segment`,
src/instarec/past.py lines 33-69 and the same algorithm in
src/instarec/downloader.py lines 182-220) -/

/-- Chunk scan of the search: chunks of `size` timestamps are processed one
after the other; the probes of a chunk report in the order chosen by the
scheduler (`reorder`, applied to the chunk's timestamp list), and the first
probe reporting 200 (`ex`) wins — this is `asyncio.as_completed` plus the
early `return`.  `n` is the number of chunks still to search, `j` the index
of the current chunk. -/
def searchChunksGo (ex : Nat → Bool) (reorder : Nat → List Nat → List Nat)
    (startT size : Nat) : Nat → Nat → Option Nat
  | 0, _ => none
  | n+1, j =>
    match (reorder j (List.range' (startT + j*size) size)).find? ex with
    | some t => some t
    | none => searchChunksGo ex reorder startT size n (j+1)

/-- Number of chunks `range(0, threshold, size)` iterates over. -/
def numChunks (threshold size : Nat) : Nat := (threshold + size - 1) / size

/-- `search_forwards_for_next_segment(downloader, start_t)`:
search forward from `start_t` over `threshold` timestamps in chunks of
`size`; `ex t` tells whether the HEAD probe at timestamp `t` reports 200,
`reorder` is the completion order the scheduler happens to produce for each
chunk's probes. -/
def search_forwards_for_next_segment (ex : Nat → Bool)
    (reorder : Nat → List Nat → List Nat) (startT threshold size : Nat) : Option Nat :=
  searchChunksGo ex reorder startT size (numChunks threshold size) 0

/-! ## Manifest codec (`src/instarec/mpd.py`) -/

/-- A `Representation` element of the manifest, with the attributes the
selection logic reads.  `bandwidth` is `none` when the attribute is absent
(the code then uses `int(r.get('bandwidth', 0)) = 0`). -/
structure Representation where
  id : String
  mimeType : String
  bandwidth : Option Nat
deriving DecidableEq

/-- Effective bandwidth used as the `max` key: `int(r.get('bandwidth', 0))`. -/
def bwOf (r : Representation) : Nat := r.bandwidth.getD 0

/-- The preferred-ids scan of `select_representation`: for each preferred id
in order, scan the representations in document order and return the first
match; fall through when no preferred id is present. -/
def findPreferred (allReps : List Representation) : List String → Option Representation
  | [] => none
  | pid :: rest =>
    match allReps.find? (fun r => r.id == pid) with
    | some rep => some rep
    | none => findPreferred allReps rest

/-- Python's `max(l, key=bwOf)` applied to `best :: l`: iterate, replacing
the current best only on a strictly larger key, so the first maximal
element in document order wins. -/
def maxRep (best : Representation) : List Representation → Representation
  | [] => best
  | x :: xs => maxRep (if bwOf best < bwOf x then x else best) xs

/-- `select_representation(root, media_type, preferred_ids)` from
src/instarec/mpd.py (lines 71-94).  `reps` lists the manifest's
`Representation` elements in document order; the result is `none` exactly
when the code raises `ValueError` (no representation of the mime type). -/
def select_representation (reps : List Representation) (mediaType : String)
    (preferredIds : List String) : Option Representation :=
  match reps.filter (fun r => r.mimeType == mediaType) with
  | [] => none
  | r :: rest =>
    match (if preferredIds.isEmpty then none
           else findPreferred (r :: rest) preferredIds) with
    | some rep => some rep
    | none => some (maxRep r rest)

/-- A parsed manifest, reduced to what the live poller reads: the
`SegmentTimeline` (when present) as the list of its `S` entries' `@t`
values in document order. -/
structure Manifest where
  timeline : Option (List Nat)
deriving DecidableEq

/-- ASCII lowercasing of one character (header names are ASCII). -/
def lowerChar (c : Char) : Char :=
  if c.toNat < 91 ∧ 64 < c.toNat then Char.ofNat (c.toNat + 32) else c

/-- ASCII lowercasing of a header name. -/
def lowerString (s : String) : String := String.mk (s.data.map lowerChar)

/-- Case-insensitive membership test of a lowercase header name in a header
multidict (`"x-fb-video-broadcast-ended" in headers` on a `CIMultiDict`). -/
def headerContains (hdrs : List String) (key : String) : Bool :=
  hdrs.any (fun h => lowerString h == key)

/-- `fetch_and_parse_mpd` from src/instarec/mpd.py (lines 27-44), given the
`fetch_url_content` outcome and an XML parser oracle (`none` models
`XMLSyntaxError`): reports the parsed root (if any) and whether the
response carried the `x-fb-video-broadcast-ended` header. -/
def fetch_and_parse_mpd (fr : FetchResult) (parse : List Nat → Option Manifest) :
    Option Manifest × Bool :=
  let isEnded :=
    match fr.headers with
    | some hdrs => !hdrs.isEmpty && headerContains hdrs "x-fb-video-broadcast-ended"
    | none => false
  match fr.content with
  | none => (none, isEnded)
  | some c =>
    if c.isEmpty then (none, isEnded)
    else
      match parse c with
      | some root => (some root, isEnded)
      | none => (none, isEnded)

/-! ## Live poller and live downloader (`src/instarec/live.py`) -/

/-- An item of `live_download_queue`: a timestamp or the `None` sentinel. -/
inductive QueueItem where
  | sentinel
  | ts (t : Nat)
deriving DecidableEq

/-- What one poll iteration sees, after `fetch_and_parse_mpd` and the
timeline lookup: the end header, a skipped iteration (failed fetch/parse or
no `SegmentTimeline`), or the timeline's `S@t` entries in document order. -/
inductive PollResult where
  | ended
  | skip
  | timeline (entries : List Nat)
deriving DecidableEq

/-- How `poll_live_manifest` turns a `fetch_and_parse_mpd` result into the
iteration's behaviour: `is_ended` first, then `root is None` and a missing
`SegmentTimeline` both just continue. -/
def pollResultOf (m : Option Manifest × Bool) : PollResult :=
  if m.2 then PollResult.ended
  else
    match m.1 with
    | none => PollResult.skip
    | some root =>
      match root.timeline with
      | none => PollResult.skip
      | some entries => PollResult.timeline entries

/-- The inner `for segment in timeline.findall(...)` loop of
`poll_live_manifest`: walk the `S` entries in document order and enqueue
every `t ≥ initialT` not yet in `queued_live_timestamps`; returns the
updated queued set and the newly enqueued timestamps in order. -/
def enqueueNew (initialT : Nat) : List Nat → Finset Nat → Finset Nat × List Nat
  | [], q => (q, [])
  | t :: rest, q =>
    if initialT ≤ t ∧ t ∉ q then
      let r := enqueueNew initialT rest (insert t q)
      (r.1, t :: r.2)
    else enqueueNew initialT rest q

/-- `poll_live_manifest` from src/instarec/live.py (lines 11-56), as the
sequence of items it puts on `live_download_queue`.  Each poll is a pair of
the loop-time at which it completes and its `PollResult`; `lastNew` is
`last_new_segment_time` (initially `None`).  The inactivity check fires
only on a poll that produced a timeline but no new timestamps, and only
when `lastNew` has been set. -/
def pollLive (initialT : Nat) (timeout : ℚ) :
    List (ℚ × PollResult) → Finset Nat → Option ℚ → List QueueItem
  | [], _, _ => []
  | (now, res) :: rest, queued, lastNew =>
    match res with
    | PollResult.ended => [QueueItem.sentinel]
    | PollResult.skip => pollLive initialT timeout rest queued lastNew
    | PollResult.timeline entries =>
      let r := enqueueNew initialT entries queued
      if r.2.isEmpty then
        match lastNew with
        | some l =>
          if timeout < now - l then [QueueItem.sentinel]
          else pollLive initialT timeout rest r.1 lastNew
        | none => pollLive initialT timeout rest r.1 lastNew
      else r.2.map QueueItem.ts ++ pollLive initialT timeout rest r.1 (some now)

/-- Timestamps carried by a queue-item list, in order. -/
def tsOf : List QueueItem → List Nat
  | [] => []
  | QueueItem.sentinel :: rest => tsOf rest
  | QueueItem.ts t :: rest => t :: tsOf rest

/-! ## Shared run state and the two workers -/

/-- The engine state shared by the workers: the two staging file pairs and
the loss-accounting fields of `StreamDownloader`.  `attempted` records, in
order, every timestamp for which a segment-pair download was attempted
(each attempt increments `total_expected_segments`); `recorded` is the
spec's `recordedTimestamps`, the set of timestamps whose pair was appended. -/
structure RunState where
  pastFiles : AppendLog
  liveFiles : AppendLog
  totalExpected : Nat
  missing : Finset Nat
  recorded : Finset Nat
  attempted : List Nat
  firstSegmentT : Option Nat
deriving DecidableEq

/-- State at engine start: empty staging files and zeroed counters. -/
def initialState : RunState := ⟨⟨[], []⟩, ⟨[], []⟩, 0, ∅, ∅, [], none⟩

/-- `first_segment_t` update on a successful past segment. -/
def updateFirst : Option Nat → Nat → Option Nat
  | none, t => some t
  | some f, t => if t < f then some t else some f

/-- One attempted segment pair of the past worker at timestamp `t`:
increment `total_expected_segments`, run `download_and_append_segment`
against the past files, then either update `first_segment_t` or add `t` to
`missing_segment_timestamps` (src/instarec/past.py lines 89-111). -/
def pastAttempt (fv fa : Nat → Option (List Nat)) (t : Nat) (s : RunState) :
    RunState × Bool :=
  let s1 := { s with totalExpected := s.totalExpected + 1,
                     attempted := s.attempted ++ [t] }
  let d := download_and_append_segment (fv t) (fa t) t s1.pastFiles
  if d.2 then
    ({ s1 with pastFiles := d.1,
               recorded := insert t s1.recorded,
               firstSegmentT := updateFirst s1.firstSegmentT t }, true)
  else ({ s1 with missing := insert t s1.missing }, false)

/-- One attempted segment pair of the live downloader at timestamp `t`
(src/instarec/live.py lines 78-83): like `pastAttempt` but against the
live files and without the `first_segment_t` update. -/
def liveAttempt (fv fa : Nat → Option (List Nat)) (t : Nat) (s : RunState) :
    RunState × Bool :=
  let s1 := { s with totalExpected := s.totalExpected + 1,
                     attempted := s.attempted ++ [t] }
  let d := download_and_append_segment (fv t) (fa t) t s1.liveFiles
  if d.2 then ({ s1 with liveFiles := d.1, recorded := insert t s1.recorded }, true)
  else ({ s1 with missing := insert t s1.missing }, false)

/-- The `while current_t is not None and current_t < initial_t` loop of
`download_past_segments` (src/instarec/past.py lines 89-122).  `fv`/`fa`
give each timestamp's video/audio GET outcome, `probe t` is
`get_next_pts_from_concatenated_file` after the append at `t`, `search`
is the forward HEAD search.  Fuel bounds the number of iterations; the
throttling sleep and the progress bar have no effect on the state and are
omitted. -/
def pastLoop (fv fa : Nat → Option (List Nat)) (probe : Nat → Option Nat)
    (search : Nat → Option Nat) (initialT : Nat) :
    Nat → Option Nat → RunState → RunState
  | 0, _, s => s
  | fuel+1, cur, s =>
    match cur with
    | none => s
    | some t =>
      if t < initialT then
        if (pastAttempt fv fa t s).2 then
          match probe t with
          | some next =>
            pastLoop fv fa probe search initialT fuel (some next) (pastAttempt fv fa t s).1
          | none =>
            pastLoop fv fa probe search initialT fuel (search (t+1)) (pastAttempt fv fa t s).1
        else pastLoop fv fa probe search initialT fuel (search (t+1)) (pastAttempt fv fa t s).1
      else s

/-- `download_past_segments` (src/instarec/past.py lines 72-127): the
starting timestamp is `publishFrameTime` when the manifest carries it,
otherwise the result of a forward search from 0; a `None` start aborts the
task without any attempt. -/
def pastRun (fv fa : Nat → Option (List Nat)) (probe : Nat → Option Nat)
    (search : Nat → Option Nat) (publishFrameTime : Option Nat)
    (initialT fuel : Nat) : RunState :=
  pastLoop fv fa probe search initialT fuel
    (match publishFrameTime with
     | some p => some p
     | none => search 0) initialState

/-- `process_live_downloads` (src/instarec/live.py lines 59-88): drain the
queue in FIFO order, exiting at the sentinel; each timestamp is one
attempted pair against the live files. -/
def processLive (fv fa : Nat → Option (List Nat)) :
    List QueueItem → RunState → RunState
  | [], s => s
  | QueueItem.sentinel :: _, s => s
  | QueueItem.ts t :: rest, s => processLive fv fa rest (liveAttempt fv fa t s).1

/-- A whole recording run, with the concurrent workers serialised: the past
worker's effect followed by the live downloader consuming exactly the queue
the live poller produced.  The workers write to disjoint files and commute
on the shared counters, so the final state is that of any interleaving. -/
def fullRun (fv fa : Nat → Option (List Nat)) (probe : Nat → Option Nat)
    (search : Nat → Option Nat) (publishFrameTime : Option Nat)
    (initialT fuel : Nat) (timeout : ℚ) (polls : List (ℚ × PollResult)) : RunState :=
  processLive fv fa (pollLive initialT timeout polls ∅ none)
    (pastRun fv fa probe search publishFrameTime initialT fuel)

/-! ## Concrete inputs used by witnesses and counterexamples -/

/-- HEAD-probe oracle with hits at `t = 5` and `t = 10` only. -/
def exW : Nat → Bool := fun t => t == 5 || t == 10

/-- A completion order for the first search chunk in which the probe at
`t = 10` reports before the probe at `t = 5`. -/
def reorderBad : Nat → List Nat → List Nat := fun j l =>
  if j = 0 then 10 :: 5 :: l.filter (fun t => !(t == 10) && !(t == 5)) else l

/-- Two polls, both with a timeline carrying no entries, the second one far
past any inactivity timeout. -/
def pollsC5 : List (ℚ × PollResult) :=
  [((0 : ℚ), PollResult.timeline []), ((1000 : ℚ), PollResult.timeline [])]

/-- Responses: a transport error on the first attempt, then 404. -/
def respW : Nat → GetResp :=
  fun n => if n = 0 then GetResp.transportError else GetResp.response 404 [] ["date"]

/-- A manifest's representations: two video variants and one audio. -/
def repsW : List Representation :=
  [⟨"v1", "video/mp4", some 5000000⟩, ⟨"v2", "video/mp4", some 1000000⟩,
   ⟨"a1", "audio/mp4", some 64000⟩]

/-- Headers of a 404 manifest response announcing end of broadcast. -/
def hsW : List String := ["X-FB-Video-Broadcast-Ended"]

/-- Parser oracle that always fails (no body to parse anyway). -/
def parseW : List Nat → Option Manifest := fun _ => none

/-- GET oracle where every segment body is the single byte 1. -/
def fvW : Nat → Option (List Nat) := fun _ => some [1]

/-- Probe oracle reporting the next timestamp as `t + 1`. -/
def probeW : Nat → Option Nat := fun t => some (t + 1)

/-- Search oracle that finds a segment at the searched-from timestamp. -/
def searchW : Nat → Option Nat := fun a => some a

/-- Two polls: a timeline with entries 2 and 3, then the end header. -/
def pollsW : List (ℚ × PollResult) :=
  [((0 : ℚ), PollResult.timeline [2, 3]), ((1 : ℚ), PollResult.ended)]

/-- The loss-accounting invariant of a run state: `missing` and `recorded`
partition the attempted timestamps, and their cardinalities add up to
`total_expected_segments`, which counts one per attempt. -/
def stateInv (s : RunState) : Prop :=
  Disjoint s.missing s.recorded ∧
  s.missing.card + s.recorded.card = s.totalExpected ∧
  s.totalExpected = s.attempted.length ∧
  (∀ x : Nat, x ∈ s.missing ∨ x ∈ s.recorded ↔ x ∈ s.attempted)

/-! ## Lemmas about the HTTP retry loop -/

lemma fetchGo_retryable (responses : Nat → GetResp) (attempt : Nat) (delay : ℚ)
    (fuel : Nat) (h : isRetryable (responses attempt) = true) :
    fetchUrlContentGo responses attempt delay (fuel+1) =
      if fuel = 0 then ⟨none, none, []⟩
      else
        ⟨(fetchUrlContentGo responses (attempt+1) (2*delay) fuel).content,
         (fetchUrlContentGo responses (attempt+1) (2*delay) fuel).headers,
         delay :: (fetchUrlContentGo responses (attempt+1) (2*delay) fuel).sleeps⟩ := by
  cases hr : responses attempt with
  | transportError => simp [fetchUrlContentGo, hr]
  | response status body hdrs =>
    rw [hr] at h
    simp only [isRetryable, Bool.and_eq_true, Bool.not_eq_true', beq_eq_false_iff_ne,
      ne_eq, decide_eq_false_iff_not] at h
    obtain ⟨⟨h200, h404⟩, hother⟩ := h
    simp [fetchUrlContentGo, hr, h200, h404, hother]

lemma fetchGo_skip (responses : Nat → GetResp) :
    ∀ (k attempt : Nat) (delay : ℚ) (fuel : Nat),
      (∀ n, n < k → isRetryable (responses (attempt + n)) = true) → k < fuel →
      fetchUrlContentGo responses attempt delay fuel =
        ⟨(fetchUrlContentGo responses (attempt + k) (2^k * delay) (fuel - k)).content,
         (fetchUrlContentGo responses (attempt + k) (2^k * delay) (fuel - k)).headers,
         ((List.range k).map fun n => 2^n * delay) ++
           (fetchUrlContentGo responses (attempt + k) (2^k * delay) (fuel - k)).sleeps⟩ := by
  intro k
  induction k with
  | zero => intro attempt delay fuel _ _; simp
  | succ k ih =>
    intro attempt delay fuel hretry hk
    obtain ⟨f, rfl⟩ : ∃ f, fuel = f + 1 := ⟨fuel - 1, by omega⟩
    rw [fetchGo_retryable responses attempt delay f
      (by simpa using hretry 0 (by omega))]
    have hf : ¬ f = 0 := by omega
    rw [if_neg hf]
    have hretry' : ∀ n, n < k → isRetryable (responses (attempt + 1 + n)) = true := by
      intro n hn
      have h := hretry (n+1) (by omega)
      rwa [show attempt + (n+1) = attempt + 1 + n by omega] at h
    rw [ih (attempt+1) (2*delay) f hretry' (by omega)]
    have hidx : attempt + 1 + k = attempt + (k + 1) := by omega
    have hpow : (2:ℚ)^k * (2*delay) = 2^(k+1) * delay := by
      rw [pow_succ]; ring
    have hfuel : f - k = f + 1 - (k + 1) := by omega
    have hsleeps : delay :: ((List.range k).map fun n => (2:ℚ)^n * (2*delay)) =
        (List.range (k+1)).map fun n => (2:ℚ)^n * delay := by
      rw [List.range_succ_eq_map]
      simp only [List.map_cons, List.map_map, pow_zero, one_mul, List.cons.injEq]
      refine ⟨trivial, ?_⟩
      apply List.map_congr_left
      intro n _
      simp [Function.comp, pow_succ]
      ring
    rw [hidx, hpow, hfuel]
    dsimp only
    rw [← List.cons_append, hsleeps]

/-- C7: for every GET issued by `fetch_url_content` with retry count `R` and
initial delay `D`: a 404 returns immediately as a distinguishable not-found
(content `none` but headers present) with no further retries; any other 4xx
except 429 returns immediately with neither content nor headers; transport
errors and 5xx/429 sleep `D·2^n` after attempt `n` and are retried for up
to `R` total attempts before giving up. -/
theorem fetch_retry_policy (responses : Nat → GetResp) (R : Nat) (D : ℚ) :
    (∀ k body hdrs, (∀ n, n < k → isRetryable (responses n) = true) → k < R →
       responses k = GetResp.response 404 body hdrs →
       fetch_url_content responses R D =
         ⟨none, some hdrs, (List.range k).map fun n => 2^n * D⟩) ∧
    (∀ k status body hdrs, (∀ n, n < k → isRetryable (responses n) = true) → k < R →
       responses k = GetResp.response status body hdrs →
       400 ≤ status → status < 500 → status ≠ 429 → status ≠ 404 →
       fetch_url_content responses R D =
         ⟨none, none, (List.range k).map fun n => 2^n * D⟩) ∧
    ((∀ n, n < R → isRetryable (responses n) = true) →
       fetch_url_content responses R D =
         ⟨none, none, (List.range (R-1)).map fun n => 2^n * D⟩) ∧
    (∀ k body hdrs, (∀ n, n < k → isRetryable (responses n) = true) → k < R →
       responses k = GetResp.response 200 body hdrs →
       fetch_url_content responses R D =
         ⟨some body, some hdrs, (List.range k).map fun n => 2^n * D⟩) := by
  refine ⟨?_, ?_, ?_, ?_⟩
  · intro k body hdrs hret hk hresp
    unfold fetch_url_content
    rw [fetchGo_skip responses k 0 D R (by simpa using hret) hk]
    obtain ⟨m, hm⟩ : ∃ m, R - k = m + 1 := ⟨R - k - 1, by omega⟩
    rw [show (0 + k) = k from by omega, hm]
    simp [fetchUrlContentGo, hresp]
  · intro k status body hdrs hret hk hresp h400 h500 h429 h404
    unfold fetch_url_content
    rw [fetchGo_skip responses k 0 D R (by simpa using hret) hk]
    obtain ⟨m, hm⟩ : ∃ m, R - k = m + 1 := ⟨R - k - 1, by omega⟩
    rw [show (0 + k) = k from by omega, hm]
    have h200 : ¬ status = 200 := by omega
    simp [fetchUrlContentGo, hresp, h200, h404, h400, h500, h429]
  · intro hret
    cases R with
    | zero => simp [fetch_url_content, fetchUrlContentGo]
    | succ m =>
      unfold fetch_url_content
      rw [fetchGo_skip responses m 0 D (m+1)
        (fun n hn => by simpa using hret n (by omega)) (by omega)]
      rw [show (0 + m) = m from by omega, show m + 1 - m = 1 from by omega]
      rw [show (1:Nat) = 0 + 1 from rfl,
        fetchGo_retryable responses m (2^m * D) 0 (by simpa using hret m (by omega))]
      simp
  · intro k body hdrs hret hk hresp
    unfold fetch_url_content
    rw [fetchGo_skip responses k 0 D R (by simpa using hret) hk]
    obtain ⟨m, hm⟩ : ∃ m, R - k = m + 1 := ⟨R - k - 1, by omega⟩
    rw [show (0 + k) = k from by omega, hm]
    simp [fetchUrlContentGo, hresp]

/-- Witness for C7: with a transport error on the first attempt and a 404
on the second, the fetch sleeps once (1 second) and returns the
distinguishable not-found. -/
theorem fetch_retry_policy_witness :
    fetch_url_content respW 3 1 = ⟨none, some ["date"], [1]⟩ := by
  have h := (fetch_retry_policy respW 3 1).1 1 [] ["date"] (by decide) (by decide) rfl
  simpa using h

/-- C9: a 200 response with an empty body behaves exactly like a failed
download at the fetch interface: `download_file` reports failure and writes
nothing, and `download_and_append_segment` appends to neither file and
returns false even when the other stream's body is non-empty. -/
theorem empty_body_is_failure (hdrs : List String) (r : Nat) (D : ℚ) (t : Nat)
    (log : AppendLog) (other : Option (List Nat)) :
    fetch_url_content (fun _ => GetResp.response 200 [] hdrs) (r+1) D =
      ⟨some [], some hdrs, []⟩ ∧
    download_file ⟨some [], some hdrs, []⟩ = (none, false) ∧
    download_and_append_segment other (some []) t log = (log, false) ∧
    download_and_append_segment (some []) other t log = (log, false) := by
  refine ⟨?_, rfl, ?_, ?_⟩
  · simp [fetch_url_content, fetchUrlContentGo]
  · simp [download_and_append_segment, truthy]
  · simp [download_and_append_segment, truthy]

/-- C6: an end-of-broadcast header on any live poll makes the poller
enqueue the sentinel and exit at once (nothing further is enqueued), and
the live downloader exits upon draining the sentinel, attempting no
further segment downloads. -/
theorem ended_header_stops_live (initialT : Nat) (timeout now : ℚ)
    (rest : List (ℚ × PollResult)) (q : Finset Nat) (lastNew : Option ℚ)
    (fv fa : Nat → Option (List Nat)) (items : List QueueItem) (s : RunState) :
    pollLive initialT timeout ((now, PollResult.ended) :: rest) q lastNew =
      [QueueItem.sentinel] ∧
    processLive fv fa (QueueItem.sentinel :: items) s = s :=
  ⟨rfl, rfl⟩

/-! ## Lemmas about the backlog discoverer -/

lemma searchGo_sound (ex : Nat → Bool) (reorder : Nat → List Nat → List Nat)
    (startT size : Nat)
    (Hperm : ∀ j, (reorder j (List.range' (startT + j*size) size)).Perm
      (List.range' (startT + j*size) size)) :
    ∀ n j t, searchChunksGo ex reorder startT size n j = some t →
      ex t = true ∧ startT + j*size ≤ t ∧ t < startT + (j+n)*size := by
  intro n
  induction n with
  | zero => intro j t h; simp [searchChunksGo] at h
  | succ n ih =>
    intro j t h
    rw [searchChunksGo] at h
    cases hfind : (reorder j (List.range' (startT + j*size) size)).find? ex with
    | some u =>
      rw [hfind] at h
      obtain rfl : u = t := by simpa using h
      have hex := List.find?_some hfind
      have hmem := (Hperm j).mem_iff.mp (List.mem_of_find?_eq_some hfind)
      rw [List.mem_range'_1] at hmem
      refine ⟨hex, hmem.1, ?_⟩
      have hstep : startT + (j+1)*size = startT + j*size + size := by
        rw [Nat.succ_mul, Nat.add_assoc]
      have hmono : (j+1)*size ≤ (j+(n+1))*size :=
        Nat.mul_le_mul_right size (by omega)
      have := hmem.2
      linarith
    | none =>
      rw [hfind] at h
      obtain ⟨hex, h1, h2⟩ := ih (j+1) t h
      have hmono : j*size ≤ (j+1)*size := Nat.mul_le_mul_right size (by omega)
      have hidx : (j+1+n)*size = (j+(n+1))*size := by
        rw [show j+1+n = j+(n+1) from by omega]
      refine ⟨hex, by linarith, ?_⟩
      rw [hidx] at h2
      exact h2

lemma find?_range'_least (ex : Nat → Bool) :
    ∀ (k s t : Nat), s ≤ t → t < s + k → ex t = true →
      (∀ u, s ≤ u → u < t → ex u = false) →
      (List.range' s k).find? ex = some t := by
  intro k
  induction k with
  | zero => intro s t h1 h2 _ _; omega
  | succ k ih =>
    intro s t h1 h2 hex hmin
    rw [List.range'_succ]
    by_cases hst : s = t
    · subst hst
      exact List.find?_cons_of_pos _ hex
    · have hs : ex s = false := hmin s (le_refl s) (by omega)
      rw [List.find?_cons_of_neg _ (by simp [hs])]
      exact ih (s+1) t (by omega) (by omega) hex (fun u hu1 hu2 => hmin u (by omega) hu2)

lemma find?_range'_none (ex : Nat → Bool) (k s : Nat)
    (h : ∀ u, s ≤ u → u < s + k → ex u = false) :
    (List.range' s k).find? ex = none := by
  rw [List.find?_eq_none]
  intro x hx
  rw [List.mem_range'_1] at hx
  simp [h x hx.1 hx.2]

lemma searchGo_id_least (ex : Nat → Bool) (startT size : Nat) :
    ∀ n j t, ex t = true → startT + j*size ≤ t → t < startT + (j+n)*size →
      (∀ u, startT + j*size ≤ u → u < t → ex u = false) →
      searchChunksGo ex (fun _ l => l) startT size n j = some t := by
  intro n
  induction n with
  | zero =>
    intro j t _ h1 h2 _
    exfalso
    rw [Nat.add_zero] at h2
    exact absurd (lt_of_le_of_lt h1 h2) (lt_irrefl _)
  | succ n ih =>
    intro j t hex h1 h2 hmin
    have hstep : startT + (j+1)*size = startT + j*size + size := by
      rw [Nat.succ_mul, Nat.add_assoc]
    simp only [searchChunksGo]
    by_cases hcase : t < startT + j*size + size
    · rw [find?_range'_least ex size (startT + j*size) t h1 hcase hex hmin]
    · rw [find?_range'_none ex size (startT + j*size)
        (fun u hu1 hu2 => hmin u hu1 (by omega))]
      have hidx : j+1+n = j+(n+1) := by omega
      refine ih (j+1) t hex (by linarith) ?_ (fun u hu1 hu2 => hmin u (by linarith) hu2)
      rw [hidx]
      exact h2

/-- C1 (counterexample): with HEAD hits at `t = 5` and `t = 10` in the same
chunk, a legitimate completion order in which the probe at 10 reports first
makes the search return 10, while the in-order completion returns 5 — the
result is neither the smallest successful timestamp nor independent of
completion order. -/
theorem search_not_smallest_counterexample :
    (reorderBad 0 (List.range' 0 20)).Perm (List.range' 0 20) ∧
    search_forwards_for_next_segment exW reorderBad 0 20 20 = some 10 ∧
    search_forwards_for_next_segment exW (fun _ l => l) 0 20 20 = some 5 ∧
    exW 5 = true ∧ (5:Nat) < 10 := by
  refine ⟨?_, ?_, ?_, ?_, ?_⟩ <;> decide

/-- C1 (amended): for every completion order (any per-chunk permutation of
the probes), the backlog discoverer returns only timestamps `t ≥ startT`
inside the searched window whose HEAD probe reports 200; and when probes
complete in increasing timestamp order, the returned value is the smallest
such timestamp.  Which successful timestamp is returned in general depends
on the completion order within the first chunk containing a hit. -/
theorem search_returns_hit_in_window (ex : Nat → Bool)
    (reorder : Nat → List Nat → List Nat) (startT threshold size : Nat)
    (Hperm : ∀ j, (reorder j (List.range' (startT + j*size) size)).Perm
      (List.range' (startT + j*size) size)) :
    (∀ t, search_forwards_for_next_segment ex reorder startT threshold size = some t →
       ex t = true ∧ startT ≤ t ∧ t < startT + numChunks threshold size * size) ∧
    (reorder = (fun _ l => l) →
       ∀ t, ex t = true → startT ≤ t → t < startT + numChunks threshold size * size →
         (∀ u, u < startT + numChunks threshold size * size →
            ex u = true → startT ≤ u → t ≤ u) →
         search_forwards_for_next_segment ex reorder startT threshold size = some t) := by
  constructor
  · intro t h
    obtain ⟨hex, h1, h2⟩ :=
      searchGo_sound ex reorder startT size Hperm (numChunks threshold size) 0 t h
    simp only [Nat.zero_mul, Nat.add_zero, Nat.zero_add] at h1 h2
    exact ⟨hex, h1, h2⟩
  · intro hid t hex h1 h2 hmin
    subst hid
    apply searchGo_id_least ex startT size (numChunks threshold size) 0 t hex
      (by simpa using h1) (by simpa using h2)
    intro u hu1 hu2
    by_contra hcon
    have hu : ex u = true := by
      cases hcase : ex u with
      | true => rfl
      | false => exact absurd hcase hcon
    have := hmin u (by omega) hu (by simpa using hu1)
    omega

/-- Witness for the amended C1: with hits at 5 and 10 and in-order
completion, the search from 0 returns the smallest hit, 5. -/
theorem search_returns_hit_witness :
    search_forwards_for_next_segment exW (fun _ l => l) 0 20 20 = some 5 ∧
    exW 5 = true := by
  constructor
  · exact (search_returns_hit_in_window exW (fun _ l => l) 0 20 20
      (fun j => List.Perm.refl _)).2 rfl 5 (by decide) (by decide) (by decide) (by decide)
  · decide

/-! ## Lemmas about the live poller -/

lemma enqueueNew_all_lt (i : Nat) :
    ∀ (es : List Nat) (q : Finset Nat), (∀ t ∈ es, t < i) →
      enqueueNew i es q = (q, []) := by
  intro es
  induction es with
  | nil => intro q _; rfl
  | cons t rest ih =>
    intro q h
    have ht : t < i := h t (by simp)
    rw [enqueueNew, if_neg (fun hc => absurd hc.1 (by omega))]
    exact ih q (fun u hu => h u (by simp [hu]))

lemma pollLive_timeout_fires (i : Nat) (timeout now l : ℚ) (es : List Nat)
    (rest : List (ℚ × PollResult)) (q : Finset Nat)
    (hnew : (enqueueNew i es q).2 = []) (ht : timeout < now - l) :
    pollLive i timeout ((now, PollResult.timeline es) :: rest) q (some l) =
      [QueueItem.sentinel] := by
  simp [pollLive, hnew, ht]

lemma pollLive_no_new_no_sentinel (i : Nat) (timeout : ℚ) :
    ∀ (polls : List (ℚ × PollResult)) (q : Finset Nat),
      (∀ p ∈ polls, p.2 ≠ PollResult.ended ∧
        ∀ es, p.2 = PollResult.timeline es → ∀ t ∈ es, t < i) →
      pollLive i timeout polls q none = [] := by
  intro polls
  induction polls with
  | nil => intro q _; rfl
  | cons p rest ih =>
    intro q hp
    obtain ⟨now, res⟩ := p
    cases res with
    | ended => exact absurd rfl (hp (now, PollResult.ended) (by simp)).1
    | skip =>
      simp only [pollLive]
      exact ih q (fun p' hp' => hp p' (by simp [hp']))
    | timeline es =>
      have hlt := (hp (now, PollResult.timeline es) (by simp)).2 es rfl
      simp only [pollLive, enqueueNew_all_lt i es q hlt]
      exact ih q (fun p' hp' => hp p' (by simp [hp']))

/-- C5 (counterexample): with two polls whose timelines carry no entries,
the second one 1000 s after the first (far beyond the 180 s timeout),
`lastNewSegmentTime` is never set and the poller emits nothing — contrary
to the claim that the timeout is measured from startup when
`lastNewSegmentTime` has never been set. -/
theorem poller_startup_timeout_counterexample :
    pollLive 100 180 pollsC5 ∅ none = [] ∧ ((180:ℚ) < 1000 - 0) := by
  refine ⟨rfl, by norm_num⟩

/-- C5 (amended): the inactivity timeout fires — the poller emits the
end-sentinel and exits — on a successfully fetched timeline poll that
enqueues nothing and arrives more than `liveEndTimeout` after
`lastNewSegmentTime`, provided `lastNewSegmentTime` has been set.  When it
has never been set (no new timestamp was ever observed), no inactivity
timeout applies and the poller keeps polling without emitting the
sentinel. -/
theorem poller_inactivity_timeout (i : Nat) (timeout now l : ℚ) (es : List Nat)
    (rest polls : List (ℚ × PollResult)) (q : Finset Nat) :
    ((enqueueNew i es q).2 = [] → timeout < now - l →
       pollLive i timeout ((now, PollResult.timeline es) :: rest) q (some l) =
         [QueueItem.sentinel]) ∧
    ((∀ p ∈ polls, p.2 ≠ PollResult.ended ∧
        ∀ es', p.2 = PollResult.timeline es' → ∀ t ∈ es', t < i) →
       pollLive i timeout polls q none = []) :=
  ⟨fun h1 h2 => pollLive_timeout_fires i timeout now l es rest q h1 h2,
   fun h => pollLive_no_new_no_sentinel i timeout polls q h⟩

/-- Witness for the amended C5: a timeline poll with no entries arriving
200 s after the last new segment (timeout 180 s) makes the poller emit the
sentinel; with `lastNewSegmentTime` unset, an entry-free poll emits
nothing. -/
theorem poller_inactivity_timeout_witness :
    pollLive 0 180 [((200:ℚ), PollResult.timeline [])] ∅ (some 0) =
      [QueueItem.sentinel] ∧
    pollLive 5 180 [((0:ℚ), PollResult.timeline [])] ∅ none = [] := by
  constructor
  · exact (poller_inactivity_timeout 0 180 200 0 [] [] [] ∅).1 rfl (by norm_num)
  · refine (poller_inactivity_timeout 5 180 0 0 []
      [((0:ℚ), PollResult.timeline [])] [((0:ℚ), PollResult.timeline [])] ∅).2 ?_
    intro p hp
    simp only [List.mem_singleton] at hp
    subst hp
    refine ⟨by simp, fun es' h => ?_⟩
    cases h
    simp

/-- C10: a manifest GET ending in a 404 whose headers carry
`x-fb-video-broadcast-ended` produces a fetch result with no body but with
the final response's headers; `fetch_and_parse_mpd` reports `(none, true)`
from those headers alone, and the live poller treats such a poll as end of
broadcast: it enqueues the sentinel and exits instead of treating the poll
as a transient failure. -/
theorem ended_404_shuts_down_poller (body : List Nat) (hdrs : List String)
    (r : Nat) (D : ℚ) (parse : List Nat → Option Manifest)
    (Hh : headerContains hdrs "x-fb-video-broadcast-ended" = true) :
    fetch_url_content (fun _ => GetResp.response 404 body hdrs) (r+1) D =
      ⟨none, some hdrs, []⟩ ∧
    fetch_and_parse_mpd ⟨none, some hdrs, []⟩ parse = (none, true) ∧
    pollResultOf (fetch_and_parse_mpd ⟨none, some hdrs, []⟩ parse) =
      PollResult.ended ∧
    (∀ (i : Nat) (tmo now : ℚ) (rest : List (ℚ × PollResult)) (q : Finset Nat)
       (ln : Option ℚ),
       pollLive i tmo
         ((now, pollResultOf (fetch_and_parse_mpd ⟨none, some hdrs, []⟩ parse)) :: rest)
         q ln = [QueueItem.sentinel]) := by
  have hne : hdrs.isEmpty = false := by
    cases hdrs with
    | nil => simp [headerContains] at Hh
    | cons a l => rfl
  have hparse : fetch_and_parse_mpd ⟨none, some hdrs, []⟩ parse = (none, true) := by
    simp [fetch_and_parse_mpd, hne, Hh]
  refine ⟨?_, hparse, ?_, ?_⟩
  · simp [fetch_url_content, fetchUrlContentGo]
  · rw [hparse]; rfl
  · intro i tmo now rest q ln
    rw [hparse]
    rfl

/-- Witness for C10: the concrete end-of-broadcast header (in its
original capitalisation) on a bodyless 404 yields `(none, true)`. -/
theorem ended_404_witness :
    fetch_and_parse_mpd ⟨none, some hsW, []⟩ parseW = (none, true) :=
  (ended_404_shuts_down_poller [] hsW 0 1 parseW (by decide)).2.1

/-! ## Lemmas about representation selection -/

lemma findPreferred_first_present (allReps : List Representation) :
    ∀ (ids : List String) (p : String),
      (ids.filter (fun pid => allReps.any (fun r => r.id == pid))).head? = some p →
      findPreferred allReps ids = allReps.find? (fun r => r.id == p) ∧
      ∃ rep, allReps.find? (fun r => r.id == p) = some rep := by
  intro ids
  induction ids with
  | nil => intro p h; simp at h
  | cons pid rest ih =>
    intro p h
    by_cases hany : allReps.any (fun r => r.id == pid) = true
    · simp only [List.filter, hany] at h
      simp only [List.head?_cons, Option.some.injEq] at h
      subst h
      have hsome : (allReps.find? (fun r => r.id == pid)).isSome := by
        rw [List.find?_isSome]
        simpa [List.any_eq_true] using hany
      obtain ⟨rep, hrep⟩ := Option.isSome_iff_exists.mp hsome
      refine ⟨?_, rep, hrep⟩
      rw [findPreferred, hrep]
    · have hnone : allReps.find? (fun r => r.id == pid) = none := by
        rw [List.find?_eq_none]
        intro x hx hpx
        exact hany (by rw [List.any_eq_true]; exact ⟨x, hx, hpx⟩)
      have hf : (allReps.any fun r => r.id == pid) = false := by simpa using hany
      simp only [List.filter, hf] at h
      obtain ⟨h1, h2⟩ := ih p h
      refine ⟨?_, h2⟩
      rw [findPreferred, hnone, h1]

lemma maxRep_first_max :
    ∀ (l : List Representation) (best : Representation),
      ∃ l1 l2, best :: l = l1 ++ maxRep best l :: l2 ∧
        (∀ x ∈ l1, bwOf x < bwOf (maxRep best l)) ∧
        (∀ x ∈ l2, bwOf x ≤ bwOf (maxRep best l)) := by
  intro l
  induction l with
  | nil => intro best; exact ⟨[], [], rfl, by simp, by simp⟩
  | cons x xs ih =>
    intro best
    rw [maxRep]
    by_cases hbx : bwOf best < bwOf x
    · rw [if_pos hbx]
      obtain ⟨l1, l2, heq, hl1, hl2⟩ := ih x
      refine ⟨best :: l1, l2, by rw [List.cons_append, ← heq], ?_, hl2⟩
      intro y hy
      rcases List.mem_cons.mp hy with rfl | hy'
      · have hx : x ∈ l1 ++ maxRep x xs :: l2 := by rw [← heq]; simp
        rcases List.mem_append.mp hx with h1 | h2
        · exact lt_trans hbx (hl1 x h1)
        · rcases List.mem_cons.mp h2 with hxm | hxl2
          · rw [← hxm]; exact hbx
          · exact lt_of_lt_of_le hbx (hl2 x hxl2)
      · exact hl1 y hy'
    · rw [if_neg hbx]
      obtain ⟨l1, l2, heq, hl1, hl2⟩ := ih best
      cases l1 with
      | nil =>
        simp only [List.nil_append] at heq
        injection heq with h1 h2
        refine ⟨[], x :: l2, ?_, by simp, ?_⟩
        · simp only [List.nil_append]
          rw [← h1, ← h2]
        · intro y hy
          rcases List.mem_cons.mp hy with rfl | hy'
          · rw [← h1]; exact Nat.le_of_not_lt hbx
          · exact hl2 y hy'
      | cons a l1' =>
        simp only [List.cons_append] at heq
        injection heq with h1 h2
        refine ⟨best :: x :: l1', l2, ?_, ?_, hl2⟩
        · simp only [List.cons_append]
          conv_lhs => rw [h2]
        · have hbm : bwOf best < bwOf (maxRep best xs) := by
            have ha := hl1 a (by simp)
            rwa [← h1] at ha
          intro y hy
          rcases List.mem_cons.mp hy with rfl | hy'
          · exact hbm
          · rcases List.mem_cons.mp hy' with rfl | hy''
            · exact lt_of_le_of_lt (Nat.le_of_not_lt hbx) hbm
            · exact hl1 y (by simp [hy''])

/-- C8: with a non-empty preferred-ID list at least one of whose entries is
present among the representations of the requested mime type,
`select_representation` returns the first representation (in document
order) whose id equals the earliest present preferred entry; with an empty
preferred list it returns the representation with the numerically largest
bandwidth, ties broken by document order (the first maximal element). -/
theorem representation_selection (reps : List Representation) (mediaType : String)
    (preferredIds : List String) :
    (∀ p, (preferredIds.filter (fun pid =>
         (reps.filter (fun r => r.mimeType == mediaType)).any
           (fun r => r.id == pid))).head? = some p →
       preferredIds ≠ [] ∧
       select_representation reps mediaType preferredIds =
         (reps.filter (fun r => r.mimeType == mediaType)).find?
           (fun r => r.id == p)) ∧
    (preferredIds = [] →
       ∀ r0 rest, reps.filter (fun r => r.mimeType == mediaType) = r0 :: rest →
         ∃ l1 m l2, select_representation reps mediaType preferredIds = some m ∧
           r0 :: rest = l1 ++ m :: l2 ∧
           (∀ x ∈ l1, bwOf x < bwOf m) ∧ (∀ x ∈ l2, bwOf x ≤ bwOf m)) := by
  constructor
  · intro p hp
    have hne : preferredIds ≠ [] := by
      intro h
      rw [h] at hp
      simp at hp
    refine ⟨hne, ?_⟩
    cases hAll : reps.filter (fun r => r.mimeType == mediaType) with
    | nil =>
      rw [hAll] at hp
      simp at hp
    | cons r rest =>
      rw [hAll] at hp
      obtain ⟨hfind, rep, hrep⟩ := findPreferred_first_present (r :: rest) preferredIds p hp
      have hemp : preferredIds.isEmpty = false := by
        cases preferredIds with
        | nil => exact absurd rfl hne
        | cons a l => rfl
      rw [select_representation, hAll, hemp]
      simp only [Bool.false_eq_true, if_false, hfind, hrep]
  · intro hempty r0 rest hAll
    subst hempty
    obtain ⟨l1, l2, heq, hl1, hl2⟩ := maxRep_first_max rest r0
    refine ⟨l1, maxRep r0 rest, l2, ?_, heq, hl1, hl2⟩
    rw [select_representation, hAll]
    rfl

/-- Witness for C8: among two video representations, the preferred list
`["vX", "v2"]` picks `v2` (the earliest present entry), and an empty
preferred list picks `v1`, the highest-bandwidth representation. -/
theorem representation_selection_witness :
    select_representation repsW "video/mp4" ["vX", "v2"] =
      some ⟨"v2", "video/mp4", some 1000000⟩ ∧
    select_representation repsW "video/mp4" [] =
      some ⟨"v1", "video/mp4", some 5000000⟩ := by
  constructor
  · have h := (representation_selection repsW "video/mp4" ["vX", "v2"]).1 "v2" (by decide)
    rw [h.2]
    decide
  · decide

/-! ## Lemmas about the run state -/

lemma pastAttempt_spec (fv fa : Nat → Option (List Nat)) (t : Nat) (s : RunState) :
    (pastAttempt fv fa t s).1.totalExpected = s.totalExpected + 1 ∧
    (pastAttempt fv fa t s).1.attempted = s.attempted ++ [t] ∧
    (pastAttempt fv fa t s).1.liveFiles = s.liveFiles ∧
    ((pastAttempt fv fa t s).2 = true →
       (pastAttempt fv fa t s).1.missing = s.missing ∧
       (pastAttempt fv fa t s).1.recorded = insert t s.recorded ∧
       (pastAttempt fv fa t s).1.pastFiles.video =
         s.pastFiles.video ++ [(t, (fv t).getD [])] ∧
       (pastAttempt fv fa t s).1.pastFiles.audio =
         s.pastFiles.audio ++ [(t, (fa t).getD [])]) ∧
    ((pastAttempt fv fa t s).2 = false →
       (pastAttempt fv fa t s).1.missing = insert t s.missing ∧
       (pastAttempt fv fa t s).1.recorded = s.recorded ∧
       (pastAttempt fv fa t s).1.pastFiles = s.pastFiles) := by
  cases hD : truthy (fv t) && truthy (fa t) <;>
    simp [pastAttempt, download_and_append_segment, hD]

lemma liveAttempt_spec (fv fa : Nat → Option (List Nat)) (t : Nat) (s : RunState) :
    (liveAttempt fv fa t s).1.totalExpected = s.totalExpected + 1 ∧
    (liveAttempt fv fa t s).1.attempted = s.attempted ++ [t] ∧
    (liveAttempt fv fa t s).1.pastFiles = s.pastFiles ∧
    ((liveAttempt fv fa t s).2 = true →
       (liveAttempt fv fa t s).1.missing = s.missing ∧
       (liveAttempt fv fa t s).1.recorded = insert t s.recorded ∧
       (liveAttempt fv fa t s).1.liveFiles.video =
         s.liveFiles.video ++ [(t, (fv t).getD [])] ∧
       (liveAttempt fv fa t s).1.liveFiles.audio =
         s.liveFiles.audio ++ [(t, (fa t).getD [])]) ∧
    ((liveAttempt fv fa t s).2 = false →
       (liveAttempt fv fa t s).1.missing = insert t s.missing ∧
       (liveAttempt fv fa t s).1.recorded = s.recorded ∧
       (liveAttempt fv fa t s).1.liveFiles = s.liveFiles) := by
  cases hD : truthy (fv t) && truthy (fa t) <;>
    simp [liveAttempt, download_and_append_segment, hD]

lemma pastAttempt_inv (fv fa : Nat → Option (List Nat)) (t : Nat) (s : RunState)
    (hinv : stateInv s) (hfresh : t ∉ s.attempted) :
    stateInv (pastAttempt fv fa t s).1 := by
  obtain ⟨hdisj, hcard, htot, hmem⟩ := hinv
  obtain ⟨htot', hatt', _, hT, hF⟩ := pastAttempt_spec fv fa t s
  have htm : t ∉ s.missing := fun h => hfresh ((hmem t).mp (Or.inl h))
  have htr : t ∉ s.recorded := fun h => hfresh ((hmem t).mp (Or.inr h))
  cases hr : (pastAttempt fv fa t s).2 with
  | true =>
    obtain ⟨hm, hrec, _, _⟩ := hT hr
    refine ⟨?_, ?_, ?_, ?_⟩
    · rw [hm, hrec]
      exact Finset.disjoint_insert_right.mpr ⟨htm, hdisj⟩
    · rw [hm, hrec, htot', Finset.card_insert_of_not_mem htr]
      omega
    · rw [htot', hatt']
      simp [htot]
    · intro x
      rw [hm, hrec, hatt']
      simp only [Finset.mem_insert, List.mem_append, List.mem_singleton]
      have := hmem x
      tauto
  | false =>
    obtain ⟨hm, hrec, _⟩ := hF hr
    refine ⟨?_, ?_, ?_, ?_⟩
    · rw [hm, hrec]
      exact Finset.disjoint_insert_left.mpr ⟨htr, hdisj⟩
    · rw [hm, hrec, htot', Finset.card_insert_of_not_mem htm]
      omega
    · rw [htot', hatt']
      simp [htot]
    · intro x
      rw [hm, hrec, hatt']
      simp only [Finset.mem_insert, List.mem_append, List.mem_singleton]
      have := hmem x
      tauto

lemma liveAttempt_inv (fv fa : Nat → Option (List Nat)) (t : Nat) (s : RunState)
    (hinv : stateInv s) (hfresh : t ∉ s.attempted) :
    stateInv (liveAttempt fv fa t s).1 := by
  obtain ⟨hdisj, hcard, htot, hmem⟩ := hinv
  obtain ⟨htot', hatt', _, hT, hF⟩ := liveAttempt_spec fv fa t s
  have htm : t ∉ s.missing := fun h => hfresh ((hmem t).mp (Or.inl h))
  have htr : t ∉ s.recorded := fun h => hfresh ((hmem t).mp (Or.inr h))
  cases hr : (liveAttempt fv fa t s).2 with
  | true =>
    obtain ⟨hm, hrec, _, _⟩ := hT hr
    refine ⟨?_, ?_, ?_, ?_⟩
    · rw [hm, hrec]
      exact Finset.disjoint_insert_right.mpr ⟨htm, hdisj⟩
    · rw [hm, hrec, htot', Finset.card_insert_of_not_mem htr]
      omega
    · rw [htot', hatt']
      simp [htot]
    · intro x
      rw [hm, hrec, hatt']
      simp only [Finset.mem_insert, List.mem_append, List.mem_singleton]
      have := hmem x
      tauto
  | false =>
    obtain ⟨hm, hrec, _⟩ := hF hr
    refine ⟨?_, ?_, ?_, ?_⟩
    · rw [hm, hrec]
      exact Finset.disjoint_insert_left.mpr ⟨htr, hdisj⟩
    · rw [hm, hrec, htot', Finset.card_insert_of_not_mem htm]
      omega
    · rw [htot', hatt']
      simp [htot]
    · intro x
      rw [hm, hrec, hatt']
      simp only [Finset.mem_insert, List.mem_append, List.mem_singleton]
      have := hmem x
      tauto

lemma pastAttempt_videoTs (fv fa : Nat → Option (List Nat)) (t : Nat) (s : RunState) :
    ∀ x, x ∈ videoTs (pastAttempt fv fa t s).1.pastFiles →
      x ∈ videoTs s.pastFiles ∨ x = t := by
  intro x hx
  obtain ⟨_, _, _, hT, hF⟩ := pastAttempt_spec fv fa t s
  cases hr : (pastAttempt fv fa t s).2 with
  | true =>
    obtain ⟨_, _, hvid, _⟩ := hT hr
    rw [videoTs, hvid, List.map_append] at hx
    rcases List.mem_append.mp hx with h1 | h2
    · exact Or.inl h1
    · right; simpa using h2
  | false =>
    obtain ⟨_, _, hpf⟩ := hF hr
    rw [videoTs, hpf] at hx
    exact Or.inl hx

lemma liveAttempt_videoTs (fv fa : Nat → Option (List Nat)) (t : Nat) (s : RunState) :
    ∀ x, x ∈ videoTs (liveAttempt fv fa t s).1.liveFiles →
      x ∈ videoTs s.liveFiles ∨ x = t := by
  intro x hx
  obtain ⟨_, _, _, hT, hF⟩ := liveAttempt_spec fv fa t s
  cases hr : (liveAttempt fv fa t s).2 with
  | true =>
    obtain ⟨_, _, hvid, _⟩ := hT hr
    rw [videoTs, hvid, List.map_append] at hx
    rcases List.mem_append.mp hx with h1 | h2
    · exact Or.inl h1
    · right; simpa using h2
  | false =>
    obtain ⟨_, _, hlf⟩ := hF hr
    rw [videoTs, hlf] at hx
    exact Or.inl hx

lemma pastAttempt_files_eq (fv fa : Nat → Option (List Nat)) (t : Nat) (s : RunState)
    (hp : videoTs s.pastFiles = audioTs s.pastFiles) :
    videoTs (pastAttempt fv fa t s).1.pastFiles =
      audioTs (pastAttempt fv fa t s).1.pastFiles := by
  obtain ⟨_, _, _, hT, hF⟩ := pastAttempt_spec fv fa t s
  cases hr : (pastAttempt fv fa t s).2 with
  | true =>
    obtain ⟨_, _, hvid, haud⟩ := hT hr
    simp only [videoTs, audioTs] at hp ⊢
    rw [hvid, haud, List.map_append, List.map_append, hp]
    simp
  | false =>
    obtain ⟨_, _, hpf⟩ := hF hr
    rw [videoTs, audioTs, hpf]
    exact hp

lemma liveAttempt_files_eq (fv fa : Nat → Option (List Nat)) (t : Nat) (s : RunState)
    (hl : videoTs s.liveFiles = audioTs s.liveFiles) :
    videoTs (liveAttempt fv fa t s).1.liveFiles =
      audioTs (liveAttempt fv fa t s).1.liveFiles := by
  obtain ⟨_, _, _, hT, hF⟩ := liveAttempt_spec fv fa t s
  cases hr : (liveAttempt fv fa t s).2 with
  | true =>
    obtain ⟨_, _, hvid, haud⟩ := hT hr
    simp only [videoTs, audioTs] at hl ⊢
    rw [hvid, haud, List.map_append, List.map_append, hl]
    simp
  | false =>
    obtain ⟨_, _, hlf⟩ := hF hr
    rw [videoTs, audioTs, hlf]
    exact hl

lemma pastLoop_attempted (fv fa : Nat → Option (List Nat))
    (probe search : Nat → Option Nat) (initialT : Nat) :
    ∀ (fuel : Nat) (cur : Option Nat) (s : RunState) (x : Nat),
      x ∈ (pastLoop fv fa probe search initialT fuel cur s).attempted →
      x ∈ s.attempted ∨ x < initialT := by
  intro fuel
  induction fuel with
  | zero => intro cur s x h; exact Or.inl (by simpa [pastLoop] using h)
  | succ n ih =>
    intro cur s x h
    cases cur with
    | none => exact Or.inl (by simpa [pastLoop] using h)
    | some t =>
      simp only [pastLoop] at h
      by_cases hguard : t < initialT
      · rw [if_pos hguard] at h
        have hatt := (pastAttempt_spec fv fa t s).2.1
        have step : ∀ cur',
            x ∈ (pastLoop fv fa probe search initialT n cur'
                  (pastAttempt fv fa t s).1).attempted →
            x ∈ s.attempted ∨ x < initialT := by
          intro cur' hx
          rcases ih cur' _ x hx with hin | hlt
          · rw [hatt] at hin
            rcases List.mem_append.mp hin with h1 | h2
            · exact Or.inl h1
            · right
              rw [List.mem_singleton] at h2
              omega
          · exact Or.inr hlt
        cases hr : (pastAttempt fv fa t s).2 with
        | true =>
          rw [hr, if_pos rfl] at h
          cases hp : probe t with
          | some next => rw [hp] at h; exact step (some next) h
          | none => rw [hp] at h; exact step (search (t+1)) h
        | false =>
          rw [hr, if_neg (by simp)] at h
          exact step (search (t+1)) h
      · rw [if_neg hguard] at h
        exact Or.inl h

lemma pastLoop_liveFiles (fv fa : Nat → Option (List Nat))
    (probe search : Nat → Option Nat) (initialT : Nat) :
    ∀ (fuel : Nat) (cur : Option Nat) (s : RunState),
      (pastLoop fv fa probe search initialT fuel cur s).liveFiles = s.liveFiles := by
  intro fuel
  induction fuel with
  | zero => intro cur s; simp [pastLoop]
  | succ n ih =>
    intro cur s
    cases cur with
    | none => simp [pastLoop]
    | some t =>
      simp only [pastLoop]
      by_cases hguard : t < initialT
      · rw [if_pos hguard]
        have hlive := (pastAttempt_spec fv fa t s).2.2.1
        cases hr : (pastAttempt fv fa t s).2 with
        | true =>
          rw [if_pos rfl]
          cases hp : probe t with
          | some next => rw [ih (some next) _, hlive]
          | none => rw [ih (search (t+1)) _, hlive]
        | false =>
          rw [if_neg (by simp)]
          rw [ih (search (t+1)) _, hlive]
      · rw [if_neg hguard]

lemma pastLoop_pastVideoTs (fv fa : Nat → Option (List Nat))
    (probe search : Nat → Option Nat) (initialT : Nat) :
    ∀ (fuel : Nat) (cur : Option Nat) (s : RunState) (x : Nat),
      x ∈ videoTs (pastLoop fv fa probe search initialT fuel cur s).pastFiles →
      x ∈ videoTs s.pastFiles ∨ x < initialT := by
  intro fuel
  induction fuel with
  | zero => intro cur s x h; exact Or.inl (by simpa [pastLoop] using h)
  | succ n ih =>
    intro cur s x h
    cases cur with
    | none => exact Or.inl (by simpa [pastLoop] using h)
    | some t =>
      simp only [pastLoop] at h
      by_cases hguard : t < initialT
      · rw [if_pos hguard] at h
        have step : ∀ cur',
            x ∈ videoTs (pastLoop fv fa probe search initialT n cur'
                  (pastAttempt fv fa t s).1).pastFiles →
            x ∈ videoTs s.pastFiles ∨ x < initialT := by
          intro cur' hx
          rcases ih cur' _ x hx with hin | hlt
          · rcases pastAttempt_videoTs fv fa t s x hin with h1 | h2
            · exact Or.inl h1
            · right; omega
          · exact Or.inr hlt
        cases hr : (pastAttempt fv fa t s).2 with
        | true =>
          rw [hr, if_pos rfl] at h
          cases hp : probe t with
          | some next => rw [hp] at h; exact step (some next) h
          | none => rw [hp] at h; exact step (search (t+1)) h
        | false =>
          rw [hr, if_neg (by simp)] at h
          exact step (search (t+1)) h
      · rw [if_neg hguard] at h
        exact Or.inl h

lemma pastLoop_files_eq (fv fa : Nat → Option (List Nat))
    (probe search : Nat → Option Nat) (initialT : Nat) :
    ∀ (fuel : Nat) (cur : Option Nat) (s : RunState),
      videoTs s.pastFiles = audioTs s.pastFiles →
      videoTs (pastLoop fv fa probe search initialT fuel cur s).pastFiles =
        audioTs (pastLoop fv fa probe search initialT fuel cur s).pastFiles := by
  intro fuel
  induction fuel with
  | zero => intro cur s hp; simpa [pastLoop] using hp
  | succ n ih =>
    intro cur s hp
    cases cur with
    | none => simpa [pastLoop] using hp
    | some t =>
      simp only [pastLoop]
      by_cases hguard : t < initialT
      · rw [if_pos hguard]
        have hstep := pastAttempt_files_eq fv fa t s hp
        cases hr : (pastAttempt fv fa t s).2 with
        | true =>
          rw [if_pos rfl]
          cases hp' : probe t with
          | some next => exact ih (some next) _ hstep
          | none => exact ih (search (t+1)) _ hstep
        | false =>
          rw [if_neg (by simp)]
          exact ih (search (t+1)) _ hstep
      · rw [if_neg hguard]
        exact hp

lemma pastLoop_inv (fv fa : Nat → Option (List Nat))
    (probe search : Nat → Option Nat) (initialT : Nat)
    (Hp : ∀ t r, probe t = some r → t < r)
    (Hs : ∀ a r, search a = some r → a ≤ r) :
    ∀ (fuel : Nat) (cur : Option Nat) (s : RunState),
      stateInv s →
      (∀ x ∈ s.attempted, ∀ t, cur = some t → x < t) →
      stateInv (pastLoop fv fa probe search initialT fuel cur s) := by
  intro fuel
  induction fuel with
  | zero => intro cur s hinv _; simpa [pastLoop] using hinv
  | succ n ih =>
    intro cur s hinv hbound
    cases cur with
    | none => simpa [pastLoop] using hinv
    | some t =>
      simp only [pastLoop]
      by_cases hguard : t < initialT
      · rw [if_pos hguard]
        have hfresh : t ∉ s.attempted := fun hx => lt_irrefl t (hbound t hx t rfl)
        have hinv' := pastAttempt_inv fv fa t s hinv hfresh
        have hatt := (pastAttempt_spec fv fa t s).2.1
        have hbound' : ∀ next, t < next →
            ∀ x ∈ (pastAttempt fv fa t s).1.attempted,
              ∀ u, (some next : Option Nat) = some u → x < u := by
          intro next hnext x hx u hu
          obtain rfl : next = u := by simpa using hu
          rw [hatt] at hx
          rcases List.mem_append.mp hx with h1 | h2
          · have := hbound x h1 t rfl
            omega
          · rw [List.mem_singleton] at h2
            omega
        cases hr : (pastAttempt fv fa t s).2 with
        | true =>
          rw [if_pos rfl]
          cases hp : probe t with
          | some next =>
            exact ih (some next) _ hinv' (hbound' next (Hp t next hp))
          | none =>
            apply ih (search (t+1)) _ hinv'
            intro x hx u hu
            have hu' := Hs (t+1) u hu
            have hb := hbound' (t+1) (by omega) x hx
            have := hb (t+1) rfl
            omega
        | false =>
          rw [if_neg (by simp)]
          apply ih (search (t+1)) _ hinv'
          intro x hx u hu
          have hu' := Hs (t+1) u hu
          rw [hatt] at hx
          rcases List.mem_append.mp hx with h1 | h2
          · have := hbound x h1 t rfl
            omega
          · rw [List.mem_singleton] at h2
            omega
      · rw [if_neg hguard]
        exact hinv

lemma processLive_pastFiles (fv fa : Nat → Option (List Nat)) :
    ∀ (items : List QueueItem) (s : RunState),
      (processLive fv fa items s).pastFiles = s.pastFiles := by
  intro items
  induction items with
  | nil => intro s; rfl
  | cons it rest ih =>
    intro s
    cases it with
    | sentinel => rfl
    | ts t =>
      simp only [processLive]
      rw [ih, (liveAttempt_spec fv fa t s).2.2.1]

lemma processLive_liveVideoTs (fv fa : Nat → Option (List Nat)) :
    ∀ (items : List QueueItem) (s : RunState) (x : Nat),
      x ∈ videoTs (processLive fv fa items s).liveFiles →
      x ∈ videoTs s.liveFiles ∨ x ∈ tsOf items := by
  intro items
  induction items with
  | nil => intro s x h; exact Or.inl h
  | cons it rest ih =>
    intro s x h
    cases it with
    | sentinel => exact Or.inl h
    | ts t =>
      simp only [processLive] at h
      rcases ih _ x h with hin | hrest
      · rcases liveAttempt_videoTs fv fa t s x hin with h1 | h2
        · exact Or.inl h1
        · right; simp [tsOf, h2]
      · right; simp [tsOf, hrest]

lemma processLive_files_eq (fv fa : Nat → Option (List Nat)) :
    ∀ (items : List QueueItem) (s : RunState),
      videoTs s.liveFiles = audioTs s.liveFiles →
      videoTs (processLive fv fa items s).liveFiles =
        audioTs (processLive fv fa items s).liveFiles := by
  intro items
  induction items with
  | nil => intro s h; exact h
  | cons it rest ih =>
    intro s h
    cases it with
    | sentinel => exact h
    | ts t =>
      simp only [processLive]
      exact ih _ (liveAttempt_files_eq fv fa t s h)

lemma processLive_inv (fv fa : Nat → Option (List Nat)) :
    ∀ (items : List QueueItem) (s : RunState),
      stateInv s → (tsOf items).Nodup →
      (∀ x ∈ s.attempted, x ∉ tsOf items) →
      stateInv (processLive fv fa items s) := by
  intro items
  induction items with
  | nil => intro s h _ _; exact h
  | cons it rest ih =>
    intro s hinv hnodup hdisj
    cases it with
    | sentinel => exact hinv
    | ts t =>
      simp only [processLive]
      have hts : tsOf (QueueItem.ts t :: rest) = t :: tsOf rest := rfl
      rw [hts] at hnodup hdisj
      obtain ⟨hthead, htail⟩ := List.nodup_cons.mp hnodup
      have hfresh : t ∉ s.attempted := fun hx => hdisj t hx (by simp)
      apply ih _ (liveAttempt_inv fv fa t s hinv hfresh) htail
      intro x hx
      rw [(liveAttempt_spec fv fa t s).2.1] at hx
      rcases List.mem_append.mp hx with h1 | h2
      · intro hmem
        exact hdisj x h1 (by simp [hmem])
      · rw [List.mem_singleton] at h2
        subst h2
        exact hthead

lemma tsOf_append : ∀ (a b : List QueueItem), tsOf (a ++ b) = tsOf a ++ tsOf b := by
  intro a
  induction a with
  | nil => intro b; rfl
  | cons it rest ih =>
    intro b
    cases it <;> simp [tsOf, ih]

lemma tsOf_map_ts : ∀ (l : List Nat), tsOf (l.map QueueItem.ts) = l := by
  intro l
  induction l with
  | nil => rfl
  | cons t rest ih => simp [tsOf, ih]

lemma enqueueNew_spec (i : Nat) :
    ∀ (es : List Nat) (q : Finset Nat),
      (enqueueNew i es q).2.Nodup ∧
      (∀ t ∈ (enqueueNew i es q).2, i ≤ t ∧ t ∉ q) ∧
      (∀ x, x ∈ (enqueueNew i es q).1 ↔ x ∈ q ∨ x ∈ (enqueueNew i es q).2) := by
  intro es
  induction es with
  | nil => intro q; exact ⟨List.nodup_nil, by simp [enqueueNew], by simp [enqueueNew]⟩
  | cons t rest ih =>
    intro q
    by_cases hc : i ≤ t ∧ t ∉ q
    · rw [enqueueNew, if_pos hc]
      obtain ⟨hnd, hmem, hq⟩ := ih (insert t q)
      dsimp only
      refine ⟨?_, ?_, ?_⟩
      · rw [List.nodup_cons]
        refine ⟨fun hmem' => ?_, hnd⟩
        exact (hmem t hmem').2 (Finset.mem_insert_self t q)
      · intro u hu
        rcases List.mem_cons.mp hu with rfl | hu'
        · exact hc
        · obtain ⟨h1, h2⟩ := hmem u hu'
          exact ⟨h1, fun hq' => h2 (Finset.mem_insert_of_mem hq')⟩
      · intro x
        rw [hq x]
        simp only [Finset.mem_insert, List.mem_cons]
        tauto
    · rw [enqueueNew, if_neg hc]
      exact ih q

lemma pollLive_ts_spec (i : Nat) (timeout : ℚ) :
    ∀ (polls : List (ℚ × PollResult)) (q : Finset Nat) (ln : Option ℚ),
      (∀ x ∈ tsOf (pollLive i timeout polls q ln), i ≤ x ∧ x ∉ q) ∧
      (tsOf (pollLive i timeout polls q ln)).Nodup := by
  intro polls
  induction polls with
  | nil => intro q ln; exact ⟨by simp [pollLive, tsOf], List.nodup_nil⟩
  | cons p rest ih =>
    intro q ln
    obtain ⟨now, res⟩ := p
    cases res with
    | ended => exact ⟨by simp [pollLive, tsOf], by simp [pollLive, tsOf]⟩
    | skip =>
      simp only [pollLive]
      exact ih q ln
    | timeline es =>
      simp only [pollLive]
      obtain ⟨hnd, hmem, hq⟩ := enqueueNew_spec i es q
      by_cases he : (enqueueNew i es q).2.isEmpty
      · rw [if_pos he]
        cases ln with
        | none =>
          obtain ⟨ihm, ihn⟩ := ih (enqueueNew i es q).1 none
          refine ⟨?_, ihn⟩
          intro x hx
          obtain ⟨h1, h2⟩ := ihm x hx
          exact ⟨h1, fun hxq => h2 ((hq x).mpr (Or.inl hxq))⟩
        | some l =>
          dsimp only
          by_cases ht : timeout < now - l
          · rw [if_pos ht]
            exact ⟨by simp [tsOf], List.nodup_nil⟩
          · rw [if_neg ht]
            obtain ⟨ihm, ihn⟩ := ih (enqueueNew i es q).1 (some l)
            refine ⟨?_, ihn⟩
            intro x hx
            obtain ⟨h1, h2⟩ := ihm x hx
            exact ⟨h1, fun hxq => h2 ((hq x).mpr (Or.inl hxq))⟩
      · rw [if_neg he]
        obtain ⟨ihm, ihn⟩ := ih (enqueueNew i es q).1 (some now)
        rw [tsOf_append, tsOf_map_ts]
        constructor
        · intro x hx
          rcases List.mem_append.mp hx with h1 | h2
          · exact hmem x h1
          · obtain ⟨hge, hnotin⟩ := ihm x h2
            exact ⟨hge, fun hxq => hnotin ((hq x).mpr (Or.inl hxq))⟩
        · refine List.Nodup.append hnd ihn ?_
          intro x hx1 hx2
          exact (ihm x hx2).2 ((hq x).mpr (Or.inr hx1))

/-- C2: `download_and_append_segment` reports success iff both the video
and the audio GET succeed (return truthy content), in which case it appends
exactly one segment to each file; on failure it modifies neither file.
Consequently, over any full run, the sequence of timestamps appended to
`video_past` equals that appended to `audio_past`, and likewise for
`video_live` and `audio_live`. -/
theorem segment_pair_atomicity (fv fa : Nat → Option (List Nat))
    (probe search : Nat → Option Nat) (pft : Option Nat)
    (initialT fuel : Nat) (timeout : ℚ) (polls : List (ℚ × PollResult)) :
    (∀ (vc ac : Option (List Nat)) (t : Nat) (log : AppendLog),
       ((download_and_append_segment vc ac t log).2 = true ↔
          (truthy vc = true ∧ truthy ac = true)) ∧
       ((download_and_append_segment vc ac t log).2 = false →
          (download_and_append_segment vc ac t log).1 = log) ∧
       ((download_and_append_segment vc ac t log).2 = true →
          (download_and_append_segment vc ac t log).1 =
            ⟨log.video ++ [(t, vc.getD [])], log.audio ++ [(t, ac.getD [])]⟩)) ∧
    videoTs (fullRun fv fa probe search pft initialT fuel timeout polls).pastFiles =
      audioTs (fullRun fv fa probe search pft initialT fuel timeout polls).pastFiles ∧
    videoTs (fullRun fv fa probe search pft initialT fuel timeout polls).liveFiles =
      audioTs (fullRun fv fa probe search pft initialT fuel timeout polls).liveFiles := by
  refine ⟨?_, ?_, ?_⟩
  · intro vc ac t log
    by_cases h : truthy vc = true ∧ truthy ac = true
    · simp [download_and_append_segment, Bool.and_eq_true, h]
    · simp [download_and_append_segment, Bool.and_eq_true, h]
  · unfold fullRun
    simp only [processLive_pastFiles]
    unfold pastRun
    exact pastLoop_files_eq fv fa probe search initialT fuel _ initialState rfl
  · unfold fullRun
    apply processLive_files_eq
    unfold pastRun
    rw [pastLoop_liveFiles]
    rfl

/-- Witness for C2: a pair with both bodies non-empty is appended to both
files; a pair with a failed audio GET leaves both files untouched and
reports failure. -/
theorem segment_pair_atomicity_witness :
    (download_and_append_segment (some [1]) (some [2]) 7 ⟨[], []⟩).1 =
      ⟨[(7, [1])], [(7, [2])]⟩ ∧
    (download_and_append_segment (some [1]) none 7 ⟨[], []⟩).1 = ⟨[], []⟩ ∧
    (download_and_append_segment (some [1]) none 7 ⟨[], []⟩).2 = false := by
  have h := (segment_pair_atomicity fvW fvW probeW searchW (some 0) 2 5 180 pollsW).1
  refine ⟨?_, ?_, by decide⟩
  · have h3 := (h (some [1]) (some [2]) 7 ⟨[], []⟩).2.2 (by decide)
    simpa using h3
  · exact (h (some [1]) none 7 ⟨[], []⟩).2.1 (by decide)

/-- C3: every timestamp the past worker attempts (and hence appends to the
past files) is `< initialT`; every timestamp the live poller enqueues (and
the live downloader attempts and appends) is `≥ initialT`; the past and
live timestamp sets are therefore disjoint. -/
theorem past_live_disjoint (fv fa : Nat → Option (List Nat))
    (probe search : Nat → Option Nat) (pft : Option Nat)
    (initialT fuel : Nat) (timeout : ℚ) (polls : List (ℚ × PollResult)) :
    (∀ t ∈ (pastRun fv fa probe search pft initialT fuel).attempted, t < initialT) ∧
    (∀ t ∈ tsOf (pollLive initialT timeout polls ∅ none), initialT ≤ t) ∧
    (∀ t ∈ videoTs
        (fullRun fv fa probe search pft initialT fuel timeout polls).pastFiles,
      t < initialT) ∧
    (∀ t ∈ videoTs
        (fullRun fv fa probe search pft initialT fuel timeout polls).liveFiles,
      initialT ≤ t) ∧
    (∀ t, t ∈ videoTs
        (fullRun fv fa probe search pft initialT fuel timeout polls).pastFiles →
      t ∉ videoTs
        (fullRun fv fa probe search pft initialT fuel timeout polls).liveFiles) := by
  have hpast : ∀ t ∈ (pastRun fv fa probe search pft initialT fuel).attempted,
      t < initialT := by
    intro t ht
    unfold pastRun at ht
    rcases pastLoop_attempted fv fa probe search initialT fuel _ initialState t ht with
      h | h
    · simp [initialState] at h
    · exact h
  have hqueue : ∀ t ∈ tsOf (pollLive initialT timeout polls ∅ none), initialT ≤ t := by
    intro t ht
    exact ((pollLive_ts_spec initialT timeout polls ∅ none).1 t ht).1
  have hpastv : ∀ t ∈ videoTs
      (fullRun fv fa probe search pft initialT fuel timeout polls).pastFiles,
      t < initialT := by
    intro t ht
    unfold fullRun at ht
    rw [processLive_pastFiles] at ht
    unfold pastRun at ht
    rcases pastLoop_pastVideoTs fv fa probe search initialT fuel _ initialState t ht with
      h | h
    · simp [initialState, videoTs] at h
    · exact h
  have hlivev : ∀ t ∈ videoTs
      (fullRun fv fa probe search pft initialT fuel timeout polls).liveFiles,
      initialT ≤ t := by
    intro t ht
    unfold fullRun at ht
    rcases processLive_liveVideoTs fv fa _ _ t ht with h | h
    · unfold pastRun at h
      rw [pastLoop_liveFiles] at h
      simp [initialState, videoTs] at h
    · exact hqueue t h
  refine ⟨hpast, hqueue, hpastv, hlivev, ?_⟩
  intro t h1 h2
  have := hpastv t h1
  have := hlivev t h2
  omega

/-- Witness for C3: in a concrete run with `initialT = 2`, the past worker
attempts timestamp 0 (which is `< 2`) and the live poller enqueues
timestamp 2 (which is `≥ 2`). -/
theorem past_live_disjoint_witness : (0:Nat) < 2 ∧ (2:Nat) ≤ 2 := by
  constructor
  · exact (past_live_disjoint fvW fvW probeW searchW (some 0) 2 5 180 pollsW).1
      0 (by decide)
  · exact (past_live_disjoint fvW fvW probeW searchW (some 0) 2 5 180 pollsW).2.1
      2 (by decide)

/-- C4: `total_expected_segments` is incremented exactly once per attempted
segment pair, past or live; every failed attempt puts its timestamp into
`missing_segment_timestamps`; and at the end of a run the cardinalities of
the missing set and the recorded set add up to `total_expected_segments`.
The hypotheses encode the documented semantics of the two timestamp
sources: ffprobe's `duration_ts` strictly advances past the appended
segment, and the forward search never returns a timestamp below where it
started. -/
theorem run_loss_accounting (fv fa : Nat → Option (List Nat))
    (probe search : Nat → Option Nat) (pft : Option Nat)
    (initialT fuel : Nat) (timeout : ℚ) (polls : List (ℚ × PollResult))
    (Hp : ∀ t r, probe t = some r → t < r)
    (Hs : ∀ a r, search a = some r → a ≤ r) :
    (∀ (t : Nat) (s : RunState),
       (pastAttempt fv fa t s).1.totalExpected = s.totalExpected + 1 ∧
       (liveAttempt fv fa t s).1.totalExpected = s.totalExpected + 1 ∧
       ((pastAttempt fv fa t s).2 = false → t ∈ (pastAttempt fv fa t s).1.missing) ∧
       ((liveAttempt fv fa t s).2 = false → t ∈ (liveAttempt fv fa t s).1.missing)) ∧
    (fullRun fv fa probe search pft initialT fuel timeout polls).totalExpected =
      (fullRun fv fa probe search pft initialT fuel timeout polls).attempted.length ∧
    (∀ x : Nat,
       x ∈ (fullRun fv fa probe search pft initialT fuel timeout polls).missing ∨
       x ∈ (fullRun fv fa probe search pft initialT fuel timeout polls).recorded ↔
       x ∈ (fullRun fv fa probe search pft initialT fuel timeout polls).attempted) ∧
    (fullRun fv fa probe search pft initialT fuel timeout polls).missing.card +
      (fullRun fv fa probe search pft initialT fuel timeout polls).recorded.card =
      (fullRun fv fa probe search pft initialT fuel timeout polls).totalExpected := by
  have hinv0 : stateInv initialState := by
    refine ⟨by simp [initialState], by simp [initialState], by simp [initialState], ?_⟩
    intro x
    simp [initialState]
  have hinv1 : stateInv (pastRun fv fa probe search pft initialT fuel) := by
    unfold pastRun
    exact pastLoop_inv fv fa probe search initialT Hp Hs fuel _ initialState hinv0
      (by simp [initialState])
  have hpastA : ∀ x ∈ (pastRun fv fa probe search pft initialT fuel).attempted,
      x < initialT := by
    intro x hx
    unfold pastRun at hx
    rcases pastLoop_attempted fv fa probe search initialT fuel _ initialState x hx with
      h | h
    · simp [initialState] at h
    · exact h
  obtain ⟨hqmem, hqnodup⟩ := pollLive_ts_spec initialT timeout polls ∅ none
  have hinv2 : stateInv (fullRun fv fa probe search pft initialT fuel timeout polls) := by
    unfold fullRun
    apply processLive_inv fv fa _ _ hinv1 hqnodup
    intro x hx hq
    have h1 := hpastA x hx
    have h2 := (hqmem x hq).1
    omega
  obtain ⟨hdisj, hcard, htot, hmem⟩ := hinv2
  refine ⟨?_, htot, hmem, hcard⟩
  intro t s
  refine ⟨(pastAttempt_spec fv fa t s).1, (liveAttempt_spec fv fa t s).1, ?_, ?_⟩
  · intro hf
    rw [((pastAttempt_spec fv fa t s).2.2.2.2 hf).1]
    exact Finset.mem_insert_self t _
  · intro hf
    rw [((liveAttempt_spec fv fa t s).2.2.2.2 hf).1]
    exact Finset.mem_insert_self t _

/-- Witness for C4: a concrete run with two past attempts (0 and 1) and two
live attempts (2 and 3), all successful: the missing and recorded sets'
cardinalities add up to `total_expected_segments = 4`. -/
theorem run_loss_accounting_witness :
    (fullRun fvW fvW probeW searchW (some 0) 2 5 180 pollsW).missing.card +
      (fullRun fvW fvW probeW searchW (some 0) 2 5 180 pollsW).recorded.card =
      (fullRun fvW fvW probeW searchW (some 0) 2 5 180 pollsW).totalExpected ∧
    (fullRun fvW fvW probeW searchW (some 0) 2 5 180 pollsW).totalExpected = 4 := by
  constructor
  · exact (run_loss_accounting fvW fvW probeW searchW (some 0) 2 5 180 pollsW
      (fun t r h => by simp [probeW] at h; omega)
      (fun a r h => by simp [searchW] at h; omega)).2.2.2
  · decide

end Instarec
